import Mathlib

/-!
Verification of the a2a-go core against its specification.

We shallowly embed the Go code of:
  * `a2asrv/eventqueue/queue_in_memory_impl.go` (bounded FIFO event queue),
  * `a2asrv/eventqueue/manager_in_memory_impl.go` (per-task queue registry),
  * `internal/taskupdate` (task update manager: `Process`, `updateStatus`,
    `validate`, `NewSubmittedTask`),
  * `a2asrv/handler.go` (`OnSendMessage`),
  * `internal/taskstore/validator.go` (`validateMeta` / `validateMetaRecursive`).

Sequential semantics: channel operations are modelled as state transitions on
an explicit queue state; an operation that would block in a quiescent system
is reported with an explicit `blocked` outcome.  Go maps are modelled as
association lists with key-wise overwriting insertion.  Go `any` metadata
values are modelled by `GoVal`, with composite values (`[]any`,
`map[string]any`) living in an explicit heap so that cyclic values are
representable.
-/

namespace A2A

/-- Task lifecycle states (`a2a.TaskState`), partitioned into terminal
(Completed, Canceled, Failed, Rejected) and non-terminal states. -/
inductive TaskState where
  | submitted
  | working
  | inputRequired
  | authRequired
  | unknown
  | completed
  | canceled
  | failed
  | rejected
  deriving DecidableEq, Repr

/-- Go `any` values allowed into Metadata, as classified by
`validateMetaRecursive`.  Scalars are immediate; composite `[]any` and
`map[string]any` values are references into a `GoHeap`, which lets us
represent the self-referential (cyclic) values the validator must detect.
`other` stands for a value of any Go type outside the permitted set (its
argument records the type name that `%T` would print). -/
inductive GoVal where
  | nil
  | bool (b : Bool)
  | int (i : Int)
  | float (f : Int)
  | str (s : String)
  | ref (id : Nat)
  | other (typeName : String)
  deriving DecidableEq, Repr

/-- A heap node: either a Go `[]any` slice or a `map[string]any` map. -/
inductive GoNode where
  | arr (elems : List GoVal)
  | mp (entries : List (String × GoVal))
  deriving DecidableEq, Repr

/-- The heap of composite metadata values; `GoVal.ref id` points at
`nodes.get? id`. -/
abbrev GoHeap := List GoNode

/-- A `map[string]any` held directly in a struct field, modelled as an
association list with distinct keys (as Go maps guarantee). -/
abbrev MetaMap := List (String × GoVal)

/-- `a2a.Message` with the fields the verified code reads. -/
structure Message where
  messageID : String
  taskID : String
  contextID : String
  text : String
  deriving DecidableEq, Repr

/-- `a2a.TaskStatus`: state, optional message, optional timestamp. -/
structure TaskStatus where
  state : TaskState
  message : Option Message
  timestamp : Option String
  deriving DecidableEq, Repr

/-- `a2a.Artifact` with the fields the verified code reads. -/
structure Artifact where
  artifactID : String
  name : String
  deriving DecidableEq, Repr

/-- `a2a.Task`: the mutable aggregate managed by the task update manager.
`metadata = none` models a nil Go map, distinct from an empty one. -/
structure Task where
  id : String
  contextID : String
  status : TaskStatus
  history : List Message
  artifacts : List Artifact
  metadata : Option MetaMap
  deriving DecidableEq, Repr

/-- `a2a.TaskStatusUpdateEvent` with the fields `updateStatus` reads. -/
structure TaskStatusUpdateEvent where
  taskID : String
  contextID : String
  status : TaskStatus
  metadata : Option MetaMap
  deriving DecidableEq, Repr

/-- `a2a.TaskArtifactUpdateEvent` with the fields `Process` reads. -/
structure TaskArtifactUpdateEvent where
  taskID : String
  contextID : String
  artifact : Artifact
  deriving DecidableEq, Repr

/-- The closed `a2a.Event` union: Message, Task snapshot, TaskStatusUpdate,
TaskArtifactUpdate (the four `isEvent` implementors guarded by
`TestInterfaceGuards`). -/
inductive Event where
  | message (m : Message)
  | task (t : Task)
  | statusUpdate (e : TaskStatusUpdateEvent)
  | artifactUpdate (e : TaskArtifactUpdateEvent)
  deriving DecidableEq, Repr

/-- The string Go `%T` prints for each event variant. -/
def eventTypeName : Event → String
  | .message _ => "*a2a.Message"
  | .task _ => "*a2a.Task"
  | .statusUpdate _ => "*a2a.TaskStatusUpdateEvent"
  | .artifactUpdate _ => "*a2a.TaskArtifactUpdateEvent"

/-- `a2a.SendMessageResult` membership: only `*a2a.Message` and `*a2a.Task`
implement `isSendMessageResult` (per the interface guards in `a2a_test.go`). -/
def isSendMessageResult : Event → Bool
  | .message _ => true
  | .task _ => true
  | .statusUpdate _ => false
  | .artifactUpdate _ => false

end A2A

namespace EventQueue

open A2A

/-- State of an `inMemoryQueue`: the buffered events channel (FIFO, front =
next to be read), its capacity, and the `closed` flag.  The semaphore and
`closeChan` coordinate concurrent callers; in the sequential semantics the
semaphore is free between operations and `closeChan` is closed exactly when
`closed` holds. -/
structure QueueState where
  buffer : List Event
  capacity : Nat
  closed : Bool
  deriving DecidableEq, Repr

/-- `NewInMemoryQueue`: empty buffer of the requested size, open. -/
def NewInMemoryQueue (size : Nat) : QueueState :=
  { buffer := [], capacity := size, closed := false }

/-- Outcome of a `Write` call. -/
inductive WriteResult where
  | ok
  | errQueueClosed
  | blocked
  deriving DecidableEq, Repr

/-- Outcome of a `Read` call. -/
inductive ReadResult where
  | event (e : Event)
  | errQueueClosed
  | blocked
  deriving DecidableEq, Repr

/-- `Write(ctx, event)`: after acquiring the admission semaphore, a closed
queue fails with `ErrQueueClosed`; otherwise the select enqueues when the
buffered channel has room, fails with `ErrQueueClosed` when `closeChan`
fires, and blocks when the buffer is full and the queue open. -/
def write (q : QueueState) (e : Event) : QueueState × WriteResult :=
  if q.closed then (q, .errQueueClosed)
  else if q.buffer.length < q.capacity then
    ({ q with buffer := q.buffer ++ [e] }, .ok)
  else (q, .blocked)

/-- `Read(ctx)`: receives from the events channel.  A closed channel still
delivers buffered events; only once drained does the receive report
`!ok`, which `Read` maps to `ErrQueueClosed`.  The `closed` flag itself is
deliberately not consulted. -/
def read (q : QueueState) : QueueState × ReadResult :=
  match q.buffer with
  | e :: rest => ({ q with buffer := rest }, .event e)
  | [] => if q.closed then (q, .errQueueClosed) else (q, .blocked)

/-- `Close()`: under `closeMu`, an already-closed queue returns nil at once;
otherwise it sets `closed`, broadcasts on `closeChan`, acquires the
semaphore and closes the events channel.  The buffered events remain
drainable.  `Close` never fails in the in-memory backend, so the returned
error is always nil, modelled by the plain state result together with
`closeReturns`. -/
def closeQueue (q : QueueState) : QueueState :=
  if q.closed then q else { q with closed := true }

/-- The error value `Close()` returns: always nil (`Except.ok ()`). -/
def closeReturns (_ : QueueState) : Except String Unit :=
  .ok ()

/-- Run a list of `Write` calls, giving the final state when every call
returned nil and `none` when some call failed or blocked. -/
def writeAll : QueueState → List Event → Option QueueState
  | q, [] => some q
  | q, e :: rest =>
    match write q e with
    | (q2, .ok) => writeAll q2 rest
    | _ => none

/-- Run `n` successive `Read` calls, collecting their outcomes in order. -/
def readMany : QueueState → Nat → List ReadResult × QueueState
  | q, 0 => ([], q)
  | q, n + 1 =>
    let (q2, r) := read q
    let (rs, q3) := readMany q2 n
    (r :: rs, q3)

/-- `inMemoryManager`: the mutex-guarded TaskID-keyed registry of queues,
modelled as an association list with distinct keys. -/
structure ManagerState where
  queues : List (String × QueueState)
  deriving DecidableEq, Repr

/-- Errors a manager operation can report. -/
inductive ManagerErr where
  | notFound (taskID : String)
  deriving DecidableEq, Repr

/-- Registry lookup, as `m.queues[taskId]`. -/
def lookupQueue (m : ManagerState) (taskID : String) : Option QueueState :=
  (m.queues.find? (fun p => p.1 = taskID)).map Prod.snd

/-- Registry removal, as `delete(m.queues, taskId)`. -/
def removeQueue (m : ManagerState) (taskID : String) : ManagerState :=
  { queues := m.queues.filter (fun p => ¬ p.1 = taskID) }

/-- `Destroy(ctx, taskId)`: under the registry mutex, an unregistered TaskID
fails with the queue-not-found error and leaves the map untouched;
otherwise the registered queue is closed (`Close` never fails in memory, its
result is discarded), removed from the map, and nil is returned.  The
`Except.ok` payload carries the state of the closed queue object, which
callers holding a reference to it still observe. -/
def destroy (m : ManagerState) (taskID : String) :
    ManagerState × Except ManagerErr QueueState :=
  match lookupQueue m taskID with
  | none => (m, .error (.notFound taskID))
  | some q => (removeQueue m taskID, .ok (closeQueue q))

end EventQueue

namespace TaskUpdate

open A2A

instance {ε α : Type} [DecidableEq ε] [DecidableEq α] : DecidableEq (Except ε α) := fun a b =>
  match a, b with
  | .ok x, .ok y =>
    if h : x = y then .isTrue (by rw [h]) else .isFalse (by intro hc; cases hc; exact h rfl)
  | .error x, .error y =>
    if h : x = y then .isTrue (by rw [h]) else .isFalse (by intro hc; cases hc; exact h rfl)
  | .ok _, .error _ => .isFalse (by intro hc; cases hc)
  | .error _, .ok _ => .isFalse (by intro hc; cases hc)

/-- Errors of `taskupdate.Manager.Process` and its helpers, one constructor
per distinct `fmt.Errorf` site, carrying the formatted arguments. -/
inductive ProcessErr where
  | taskNotSet
  | taskIDMismatch (managed given : String)
  | contextIDMismatch (managed given : String)
  | notImplemented
  | unexpectedEventType (typeName : String)
  | saveFailed (cause : String)
  deriving DecidableEq, Repr

/-- The observable outcome of one `Process` call: the managed task afterward,
the arguments passed to `Saver.Save` (in call order), and the returned
error. -/
structure ProcessResult where
  task : Option Task
  saved : List Task
  result : Except ProcessErr Unit
  deriving DecidableEq, Repr

/-- A `Saver`: `Save` either succeeds or reports an error message. -/
abbrev Saver := Task → Except String Unit

/-- Key-wise overwriting insertion, as `task.Metadata[k] = v` on a Go map. -/
def mapInsert (m : MetaMap) (k : String) (v : GoVal) : MetaMap :=
  if m.any (fun p => p.1 = k) then
    m.map (fun p => if p.1 = k then (k, v) else p)
  else m ++ [(k, v)]

/-- The metadata loop of `updateStatus`: `for k, v := range event.Metadata`
inserting into the task map (allocated first when nil). -/
def mergeMeta (dst : Option MetaMap) (src : MetaMap) : MetaMap :=
  src.foldl (fun acc p => mapInsert acc p.1 p.2) (dst.getD [])

/-- `Manager.validate(taskID, contextID)`. -/
def validate (task : Task) (taskID contextID : String) : Except ProcessErr Unit :=
  if ¬ task.id = taskID then .error (.taskIDMismatch task.id taskID)
  else if ¬ task.contextID = contextID then
    .error (.contextIDMismatch task.contextID contextID)
  else .ok ()

/-- The mutations `updateStatus` performs on the managed task: append the
superseded status message (if any) to History, merge the event metadata,
replace the Status. -/
def applyStatus (task : Task) (event : TaskStatusUpdateEvent) : Task :=
  let t1 :=
    match task.status.message with
    | some m => { task with history := task.history ++ [m] }
    | none => task
  let t2 :=
    match event.metadata with
    | some em => { t1 with metadata := some (mergeMeta t1.metadata em) }
    | none => t1
  { t2 with status := event.status }

/-- `Manager.updateStatus`: the in-memory task is mutated in place
(`applyStatus` happens on `mgr.Task` itself, through the shared pointer) and
only then is `Saver.Save` called, whose error is returned while the
mutations stay committed. -/
def updateStatus (saver : Saver) (task : Task) (event : TaskStatusUpdateEvent) :
    ProcessResult :=
  let t3 := applyStatus task event
  match saver t3 with
  | .ok () => { task := some t3, saved := [t3], result := .ok () }
  | .error e => { task := some t3, saved := [t3], result := .error (.saveFailed e) }

/-- `Manager.updateArtifact`: not implemented, no mutation. -/
def updateArtifact (task : Task) (_ : TaskArtifactUpdateEvent) : ProcessResult :=
  { task := some task, saved := [], result := .error .notImplemented }

/-- `Manager.Process(ctx, event)`: nil-task guard, then dispatch on the event
variant with identity validation before any mutation or save. -/
def process (saver : Saver) (mgrTask : Option Task) (event : Event) : ProcessResult :=
  match mgrTask with
  | none => { task := none, saved := [], result := .error .taskNotSet }
  | some task =>
    match event with
    | .message _ => { task := some task, saved := [], result := .ok () }
    | .task v =>
      match validate task v.id v.contextID with
      | .error e => { task := some task, saved := [], result := .error e }
      | .ok () =>
        match saver v with
        | .ok () => { task := some v, saved := [v], result := .ok () }
        | .error e =>
          { task := some task, saved := [v], result := .error (.saveFailed e) }
    | .artifactUpdate v =>
      match validate task v.taskID v.contextID with
      | .error e => { task := some task, saved := [], result := .error e }
      | .ok () => updateArtifact task v
    | .statusUpdate v =>
      match validate task v.taskID v.contextID with
      | .error e => { task := some task, saved := [], result := .error e }
      | .ok () => updateStatus saver task v

/-- Fold `Process` over a list of events, tracking only the managed task. -/
def processAll (saver : Saver) (mgrTask : Option Task) (events : List Event) :
    Option Task :=
  events.foldl (fun acc e => (process saver acc e).task) mgrTask

/-- `NewSubmittedTask(msg)`.  The Go code draws the task ID from
`a2a.NewTaskID()` and, when the message carries no context, the context ID
from `a2a.NewContextID()`; those generators live outside the verified
sources, so their outputs are passed in as the `freshTaskID` and
`freshContextID` parameters (each a freshly generated identifier,
independent of `msg`). -/
def NewSubmittedTask (freshTaskID freshContextID : String) (msg : Message) : Task :=
  let contextID := if msg.contextID = "" then freshContextID else msg.contextID
  { id := freshTaskID
    contextID := contextID
    status := { state := .submitted, message := none, timestamp := none }
    history := [msg]
    artifacts := []
    metadata := none }

/-- The TaskID and ContextID an event carries, for the three variants that
carry them. -/
def eventIds : Event → Option (String × String)
  | .message _ => none
  | .task t => some (t.id, t.contextID)
  | .statusUpdate e => some (e.taskID, e.contextID)
  | .artifactUpdate e => some (e.taskID, e.contextID)

/-- Whether an error is one of the two identity-mismatch errors of
`Manager.validate`. -/
def isIdentityMismatch : ProcessErr → Bool
  | .taskIDMismatch _ _ => true
  | .contextIDMismatch _ _ => true
  | _ => false

end TaskUpdate

namespace A2ASrv

open A2A EventQueue

/-- Errors `defaultRequestHandler.OnSendMessage` can return, one constructor
per `fmt.Errorf` / wrap site. -/
inductive HandlerErr where
  | missingTaskID
  | queueRetrievalFailed (cause : String)
  | executeFailed (cause : String)
  | readFailed
  | readBlocked
  | unexpectedEventType (typeName : String)
  deriving DecidableEq, Repr

/-- `OnSendMessage`: requires a non-empty TaskID on the inbound message;
retrieves the queue (here: the outcome of `queueManager.GetOrCreate`,
which for the in-memory manager never fails); invokes
`executor.Execute`, whose effect on the queue is the `execOutcome`
parameter (the queue state after the executor wrote its events, or the
executor error); performs exactly one `Read`; and requires the read event
to be an `a2a.SendMessageResult` (a Message or Task snapshot), failing with
an unexpected-event-type error naming the concrete variant otherwise. -/
def onSendMessage (msgTaskID : String)
    (execOutcome : Except String QueueState) : Except HandlerErr Event :=
  if msgTaskID = "" then .error .missingTaskID
  else
    match execOutcome with
    | .error e => .error (.executeFailed e)
    | .ok q =>
      match (read q).2 with
      | .errQueueClosed => .error .readFailed
      | .blocked => .error .readBlocked
      | .event ev =>
        if isSendMessageResult ev then .ok ev
        else .error (.unexpectedEventType (eventTypeName ev))

end A2ASrv

namespace TaskStore

open A2A

/-- Outcome of `validateMetaRecursive`, one constructor per return site:
success, the circular-reference error, the not-permitted-type error (with
the offending type name), plus two model-only outcomes — `badRef` for a
dangling heap reference (unrepresentable in Go) and `outOfFuel` when the
fuel bound is exhausted (shown never to happen for sufficient fuel). -/
inductive VResult where
  | ok
  | circular
  | notPermitted (typeName : String)
  | badRef
  | outOfFuel
  deriving DecidableEq, Repr

/-- Sequence two validation results the way the Go loops short-circuit: the
first non-nil error wins. -/
def vseq (a b : VResult) : VResult :=
  match a with
  | .ok => b
  | r => r

/-- `validateMetaRecursive(value, processing)`.  Scalars (nil, bool, the
signed int widths, floats, string) pass at once.  For any other value the
code computes the pointer key and rejects it with the circular-reference
error when the key is already on the current processing path; in the model
only composite heap references carry such keys (`%p` strings of non-pointer
values never collide with them), so the membership test lives on the `ref`
branch.  A `[]any` or `map[string]any` node is traversed with the node id
pushed onto the path (and popped on return, as the deferred delete does);
any other type fails with the not-permitted error.  The Go recursion has no
explicit bound; `fuel` makes it structural, and fuel exhaustion is the
distinguished `outOfFuel` outcome. -/
def validateMetaRecursive (h : GoHeap) : Nat → GoVal → List Nat → VResult
  | 0, _, _ => .outOfFuel
  | _ + 1, .nil, _ => .ok
  | _ + 1, .bool _, _ => .ok
  | _ + 1, .int _, _ => .ok
  | _ + 1, .float _, _ => .ok
  | _ + 1, .str _, _ => .ok
  | _ + 1, .other t, _ => .notPermitted t
  | fuel + 1, .ref id, processing =>
    if id ∈ processing then .circular
    else
      match h.get? id with
      | none => .badRef
      | some (.arr elems) =>
        elems.foldl
          (fun acc e => vseq acc (validateMetaRecursive h fuel e (id :: processing)))
          .ok
      | some (.mp entries) =>
        entries.foldl
          (fun acc p => vseq acc (validateMetaRecursive h fuel p.2 (id :: processing)))
          .ok

/-- `validateMeta(meta)`: recursive validation started with an empty
processing set.  A path can hold each node id at most once, so
`h.length + 1` fuel is enough (proved below). -/
def validateMeta (h : GoHeap) (v : GoVal) : VResult :=
  validateMetaRecursive h (h.length + 1) v []

/-- All references in a value point inside the heap. -/
def valRefsOk (n : Nat) : GoVal → Bool
  | .ref id => id < n
  | _ => true

/-- All references in a node point inside the heap. -/
def nodeRefsOk (n : Nat) : GoNode → Bool
  | .arr elems => elems.all (valRefsOk n)
  | .mp entries => entries.all (fun p => valRefsOk n p.2)

/-- A well-formed heap: every stored reference is in range.  Always true of
heaps arising from Go values. -/
def heapOK (h : GoHeap) : Bool :=
  h.all (nodeRefsOk h.length)

/-- A value contains no Go value outside the permitted metadata types. -/
def valPermitted : GoVal → Bool
  | .other _ => false
  | _ => true

/-- A node contains no value outside the permitted metadata types. -/
def nodePermitted : GoNode → Bool
  | .arr elems => elems.all valPermitted
  | .mp entries => entries.all (fun p => valPermitted p.2)

/-- Every value stored anywhere in the heap is of a permitted type. -/
def heapPermitted (h : GoHeap) : Bool :=
  h.all nodePermitted

/-- The child values of a composite node. -/
def nodeChildren : GoNode → List GoVal
  | .arr elems => elems
  | .mp entries => entries.map Prod.snd

/-- Acyclicity of the heap reference graph, witnessed by a topological rank:
every edge from a node to a composite child strictly decreases the rank. -/
def RankedAcyclic (h : GoHeap) (rank : Nat → Nat) : Prop :=
  ∀ id node, h.get? id = some node →
    ∀ cid, GoVal.ref cid ∈ nodeChildren node → rank cid < rank id

/-- The outcomes the Go function can actually produce: success, the
circular-reference error, or the not-permitted-type error — neither of the
model-only outcomes. -/
def goodResult : VResult → Bool
  | .ok => true
  | .circular => true
  | .notPermitted _ => true
  | .badRef => false
  | .outOfFuel => false

end TaskStore

namespace EventQueue

/-- A successful `writeAll` appends exactly the written events to the buffer
and touches neither the capacity nor the closed flag. -/
theorem writeAll_spec (es : List A2A.Event) :
    ∀ q q2, writeAll q es = some q2 →
      q2.buffer = q.buffer ++ es ∧ q2.capacity = q.capacity ∧ q2.closed = q.closed := by
  induction es with
  | nil =>
    intro q q2 h
    simp only [writeAll, Option.some.injEq] at h
    subst h
    simp
  | cons e rest ih =>
    intro q q2 h
    simp only [writeAll, write] at h
    by_cases hc : q.closed = true
    · simp [hc] at h
    · simp only [hc, if_false] at h
      by_cases hlen : q.buffer.length < q.capacity
      · simp only [hlen, if_true] at h
        obtain ⟨h1, h2, h3⟩ := ih _ _ h
        refine ⟨?_, h2, ?_⟩
        · rw [h1]
          simp
        · rw [Bool.eq_false_iff.mpr hc]
          exact h3
      · simp [hlen] at h

/-- Reading as many times as the buffer holds returns the buffered events in
order and leaves the same queue with an empty buffer. -/
theorem readMany_drain (es : List A2A.Event) :
    ∀ q, q.buffer = es →
      (readMany q es.length).1 = es.map ReadResult.event ∧
      (readMany q es.length).2 = { q with buffer := [] } := by
  induction es with
  | nil =>
    intro q hq
    refine ⟨rfl, ?_⟩
    show q = { q with buffer := [] }
    cases q
    simp_all
  | cons e rest ih =>
    intro q hq
    obtain ⟨h1, h2⟩ := ih { q with buffer := rest } rfl
    have hr : read q = ({ q with buffer := rest }, ReadResult.event e) := by
      simp [read, hq]
    simp only [List.length_cons, readMany, hr, List.map_cons]
    simp [h1, h2]

/-- C2: starting from a fresh queue, after N successful writes followed by
`Close`, the next N reads return exactly the written events in write order
and the (N+1)-th read fails with `ErrQueueClosed`. -/
theorem queue_writes_close_reads_fifo (size : Nat) (es : List A2A.Event)
    (q1 : QueueState) (h : writeAll (NewInMemoryQueue size) es = some q1) :
    (readMany (closeQueue q1) es.length).1 = es.map ReadResult.event ∧
    (read (readMany (closeQueue q1) es.length).2).2 = .errQueueClosed := by
  obtain ⟨hbuf, hcap, hclosed⟩ := writeAll_spec es _ _ h
  simp only [NewInMemoryQueue, List.nil_append] at hbuf hcap hclosed
  have hcq : closeQueue q1 = { q1 with closed := true } := by
    simp [closeQueue, hclosed]
  have hbuf2 : (closeQueue q1).buffer = es := by rw [hcq]; exact hbuf
  obtain ⟨h1, h2⟩ := readMany_drain es (closeQueue q1) hbuf2
  refine ⟨h1, ?_⟩
  rw [h2, hcq]
  simp [read]

/-- C2 witness: three writes into a fresh queue of capacity 4, then close,
then the reads. -/
theorem queue_writes_close_reads_fifo_witness :
    ∃ q1, writeAll (NewInMemoryQueue 4)
        [.message ⟨"m1", "t1", "c1", "a"⟩, .message ⟨"m2", "t1", "c1", "b"⟩,
         .message ⟨"m3", "t1", "c1", "c"⟩] = some q1 ∧
      (readMany (closeQueue q1) 3).1 =
        [.event (.message ⟨"m1", "t1", "c1", "a"⟩),
         .event (.message ⟨"m2", "t1", "c1", "b"⟩),
         .event (.message ⟨"m3", "t1", "c1", "c"⟩)] ∧
      (read (readMany (closeQueue q1) 3).2).2 = .errQueueClosed := by
  refine ⟨⟨[.message ⟨"m1", "t1", "c1", "a"⟩, .message ⟨"m2", "t1", "c1", "b"⟩,
            .message ⟨"m3", "t1", "c1", "c"⟩], 4, false⟩, by decide, ?_⟩
  have := queue_writes_close_reads_fifo 4
    [.message ⟨"m1", "t1", "c1", "a"⟩, .message ⟨"m2", "t1", "c1", "b"⟩,
     .message ⟨"m3", "t1", "c1", "c"⟩]
    ⟨[.message ⟨"m1", "t1", "c1", "a"⟩, .message ⟨"m2", "t1", "c1", "b"⟩,
      .message ⟨"m3", "t1", "c1", "c"⟩], 4, false⟩ (by decide)
  simpa using this

/-- C5: once a queue is closed (as `Close` leaves it), every `Write` fails
with `ErrQueueClosed`, returns immediately rather than blocking, and leaves
the state unchanged — the event is never enqueued or later delivered. -/
theorem write_after_close_fails (q0 q : QueueState) (e : A2A.Event)
    (h : q.closed = true) :
    write q e = (q, .errQueueClosed) ∧ (closeQueue q0).closed = true := by
  constructor
  · simp [write, h]
  · by_cases h0 : q0.closed
    · simp [closeQueue, h0]
    · simp [closeQueue, h0]

/-- C5 witness: writing to a freshly closed queue of capacity 2. -/
theorem write_after_close_fails_witness :
    write (closeQueue (NewInMemoryQueue 2)) (.message ⟨"m", "t", "c", "x"⟩) =
      (closeQueue (NewInMemoryQueue 2), .errQueueClosed) :=
  (write_after_close_fails (NewInMemoryQueue 2) (closeQueue (NewInMemoryQueue 2))
    (.message ⟨"m", "t", "c", "x"⟩) (by decide)).1

/-- Closing an already-closed queue changes nothing. -/
theorem closeQueue_idem (q : QueueState) :
    closeQueue (closeQueue q) = closeQueue q := by
  by_cases h : q.closed
  · simp [closeQueue, h]
  · simp [closeQueue, h]

/-- C6: `Close` is idempotent — any number of further `Close` calls leaves
the state exactly as after the first, and every call (first included)
returns success. -/
theorem close_idempotent (q : QueueState) (n : Nat) :
    closeQueue^[n + 1] q = closeQueue q ∧
    closeReturns (closeQueue q) = .ok () ∧
    closeReturns q = .ok () := by
  refine ⟨?_, rfl, rfl⟩
  induction n with
  | zero => simp
  | succ k ih =>
    rw [Function.iterate_succ_apply', ih, closeQueue_idem]

/-- C7: `Destroy` on an unregistered TaskID fails with the not-found error
and leaves the registry unchanged; on a registered TaskID it closes the
queue (so every later `Write` to that queue object fails with
`ErrQueueClosed`), removes it from the registry, and returns success. -/
theorem destroy_spec (m : ManagerState) (tid : String) :
    (lookupQueue m tid = none → destroy m tid = (m, .error (.notFound tid))) ∧
    (∀ q, lookupQueue m tid = some q →
      destroy m tid = (removeQueue m tid, .ok (closeQueue q)) ∧
      ∀ e, write (closeQueue q) e = (closeQueue q, .errQueueClosed)) := by
  constructor
  · intro h
    simp [destroy, h]
  · intro q h
    refine ⟨by simp [destroy, h], ?_⟩
    intro e
    have hc : (closeQueue q).closed = true := by
      by_cases hq : q.closed
      · simp [closeQueue, hq]
      · simp [closeQueue, hq]
    simp [write, hc]

/-- C7 witness: a registry holding one queue for task t1 — destroying t2
fails not-found, destroying t1 closes and removes the queue and writes to
the closed queue fail. -/
theorem destroy_spec_witness :
    destroy ⟨[("t1", NewInMemoryQueue 2)]⟩ "t2" =
      (⟨[("t1", NewInMemoryQueue 2)]⟩, .error (.notFound "t2")) ∧
    destroy ⟨[("t1", NewInMemoryQueue 2)]⟩ "t1" =
      (removeQueue ⟨[("t1", NewInMemoryQueue 2)]⟩ "t1",
        .ok (closeQueue (NewInMemoryQueue 2))) ∧
    write (closeQueue (NewInMemoryQueue 2)) (.message ⟨"m", "t", "c", "x"⟩) =
      (closeQueue (NewInMemoryQueue 2), .errQueueClosed) := by
  have h1 := (destroy_spec ⟨[("t1", NewInMemoryQueue 2)]⟩ "t2").1 (by decide)
  have h2 := (destroy_spec ⟨[("t1", NewInMemoryQueue 2)]⟩ "t1").2
    (NewInMemoryQueue 2) (by decide)
  exact ⟨h1, h2.1, h2.2 (.message ⟨"m", "t", "c", "x"⟩)⟩

end EventQueue

namespace TaskUpdate

open A2A

/-- `applyStatus` keeps the identity fields, installs the event status, and
appends the superseded status message (when present) to History. -/
theorem applyStatus_fields (t : Task) (e : TaskStatusUpdateEvent) :
    (applyStatus t e).id = t.id ∧
    (applyStatus t e).contextID = t.contextID ∧
    (applyStatus t e).status = e.status ∧
    (applyStatus t e).history = t.history ++ t.status.message.toList := by
  unfold applyStatus
  cases hm : t.status.message <;> cases he : e.metadata <;> simp [hm, he]

/-- A status update whose identifiers match leaves the manager holding the
mutated task, whatever the saver answered. -/
theorem process_statusUpdate_task (saver : Saver) (t : Task)
    (e : TaskStatusUpdateEvent) (h1 : e.taskID = t.id)
    (h2 : e.contextID = t.contextID) :
    (process saver (some t) (.statusUpdate e)).task = some (applyStatus t e) := by
  have hv : validate t e.taskID e.contextID = .ok () := by
    simp [validate, h1, h2]
  simp only [process, hv, updateStatus]
  cases saver (applyStatus t e) <;> simp

/-- Folding matching status updates from any starting task: the final history
is the start history, then the superseded start message, then all event
messages but the last; the final status is that of the last event. -/
theorem processAll_status_general (saver : Saver) :
    ∀ (evs : List TaskStatusUpdateEvent) (ms : List Message) (t : Task),
      evs ≠ [] →
      evs.map (fun e => e.status.message) = ms.map some →
      (∀ e ∈ evs, e.taskID = t.id ∧ e.contextID = t.contextID) →
      ∃ t1, processAll saver (some t) (evs.map Event.statusUpdate) = some t1 ∧
        t1.history = t.history ++ t.status.message.toList ++ ms.dropLast ∧
        ∀ elast, evs.getLast? = some elast → t1.status = elast.status := by
  intro evs
  induction evs with
  | nil => intro ms t hne; exact absurd rfl hne
  | cons e rest ih =>
    intro ms t _ hmsg hid
    cases ms with
    | nil => simp at hmsg
    | cons m ms2 =>
      simp only [List.map_cons, List.cons.injEq] at hmsg
      obtain ⟨hm, hms2⟩ := hmsg
      obtain ⟨hid1, hid2⟩ := hid e (List.mem_cons_self e rest)
      have hstep := process_statusUpdate_task saver t e hid1 hid2
      have hchain : processAll saver (some t) ((e :: rest).map Event.statusUpdate) =
          processAll saver (some (applyStatus t e)) (rest.map Event.statusUpdate) := by
        simp only [List.map_cons, processAll, List.foldl_cons, hstep]
      obtain ⟨haid, hactx, hastat, hahist⟩ := applyStatus_fields t e
      cases rest with
      | nil =>
        have hms2nil : ms2 = [] := by cases ms2 <;> simp_all
        subst hms2nil
        refine ⟨applyStatus t e, ?_, ?_, ?_⟩
        · rw [hchain]; rfl
        · rw [hahist]; simp
        · intro elast helast
          simp only [List.getLast?_singleton, Option.some.injEq] at helast
          rw [hastat, ← helast]
      | cons e2 rest2 =>
        cases ms2 with
        | nil => simp at hms2
        | cons m2 ms3 =>
          have hids2 : ∀ x ∈ e2 :: rest2,
              x.taskID = (applyStatus t e).id ∧
              x.contextID = (applyStatus t e).contextID := by
            intro x hx
            rw [haid, hactx]
            exact hid x (List.mem_cons_of_mem e hx)
          obtain ⟨t1, hrun, hhist, hstat⟩ :=
            ih (m2 :: ms3) (applyStatus t e) (by simp) hms2 hids2
          refine ⟨t1, ?_, ?_, ?_⟩
          · rw [hchain]; exact hrun
          · rw [hhist, hahist, hastat, hm]
            simp
          · intro elast helast
            rw [List.getLast?_cons_cons] at helast
            exact hstat elast helast

/-- C3: from a task with empty History and no current status message, K ≥ 1
matching status updates, each with a non-nil Message, leave History holding
exactly the first K−1 event messages in application order and leave the
Status equal to the Status of the K-th event. -/
theorem status_updates_history_and_status (saver : Saver) (t0 : Task)
    (evs : List TaskStatusUpdateEvent) (ms : List Message)
    (elast : TaskStatusUpdateEvent) (hlast : evs.getLast? = some elast)
    (hmsg : evs.map (fun e => e.status.message) = ms.map some)
    (hid : ∀ e ∈ evs, e.taskID = t0.id ∧ e.contextID = t0.contextID)
    (hh0 : t0.history = []) (hm0 : t0.status.message = none) :
    ∃ t1, processAll saver (some t0) (evs.map Event.statusUpdate) = some t1 ∧
      t1.history = ms.dropLast ∧ t1.status = elast.status := by
  have hne : evs ≠ [] := by
    intro hnil
    rw [hnil] at hlast
    simp at hlast
  obtain ⟨t1, h1, h2, h3⟩ := processAll_status_general saver evs ms t0 hne hmsg hid
  rw [hh0, hm0] at h2
  simp only [Option.toList_none, List.append_nil, List.nil_append] at h2
  exact ⟨t1, h1, h2, h3 elast hlast⟩

/-- C3 witness: two status updates (K = 2) carrying messages m1, m2 against a
fresh task — History ends as [m1] and Status as that of the second event. -/
theorem status_updates_history_and_status_witness :
    ∃ t1, processAll (fun _ => .ok ())
        (some ⟨"t", "c", ⟨.submitted, none, none⟩, [], [], none⟩)
        ([⟨"t", "c", ⟨.working, some ⟨"m1", "t", "c", "a"⟩, none⟩, none⟩,
          ⟨"t", "c", ⟨.completed, some ⟨"m2", "t", "c", "b"⟩, none⟩, none⟩].map
            Event.statusUpdate) = some t1 ∧
      t1.history = [⟨"m1", "t", "c", "a"⟩] ∧
      t1.status = ⟨.completed, some ⟨"m2", "t", "c", "b"⟩, none⟩ := by
  obtain ⟨t1, h1, h2, h3⟩ := status_updates_history_and_status (fun _ => .ok ())
    ⟨"t", "c", ⟨.submitted, none, none⟩, [], [], none⟩
    [⟨"t", "c", ⟨.working, some ⟨"m1", "t", "c", "a"⟩, none⟩, none⟩,
     ⟨"t", "c", ⟨.completed, some ⟨"m2", "t", "c", "b"⟩, none⟩, none⟩]
    [⟨"m1", "t", "c", "a"⟩, ⟨"m2", "t", "c", "b"⟩]
    ⟨"t", "c", ⟨.completed, some ⟨"m2", "t", "c", "b"⟩, none⟩, none⟩
    (by decide) (by decide) (by decide) rfl rfl
  exact ⟨t1, h1, by simpa using h2, by simpa using h3⟩

/-- C4: an event carrying a TaskID/ContextID pair that does not exactly match
the managed task (empty strings included) makes `Process` fail with an
identity-mismatch error, with the managed task unchanged in every field and
`Saver.Save` never invoked. -/
theorem process_rejects_identity_mismatch (saver : Saver) (t : Task) (ev : Event)
    (tid cid : String) (hids : eventIds ev = some (tid, cid))
    (hmm : ¬ (t.id = tid ∧ t.contextID = cid)) :
    ∃ err, isIdentityMismatch err = true ∧
      process saver (some t) ev =
        { task := some t, saved := [], result := .error err } := by
  have main : ∀ res : ProcessResult,
      (match validate t tid cid with
        | .error e => res = { task := some t, saved := [], result := .error e }
        | .ok () => True) →
      (process saver (some t) ev = res) →
      ∃ err, isIdentityMismatch err = true ∧
        process saver (some t) ev =
          { task := some t, saved := [], result := .error err } := by
    intro res hres hp
    by_cases hid : t.id = tid
    · have hcid : ¬ t.contextID = cid := fun hc => hmm ⟨hid, hc⟩
      refine ⟨.contextIDMismatch t.contextID cid, rfl, ?_⟩
      rw [hp]
      simpa [validate, hid, hcid] using hres
    · refine ⟨.taskIDMismatch t.id tid, rfl, ?_⟩
      rw [hp]
      simpa [validate, hid] using hres
  cases ev with
  | message m => simp [eventIds] at hids
  | task v =>
    simp only [eventIds, Option.some.injEq, Prod.mk.injEq] at hids
    obtain ⟨hv1, hv2⟩ := hids
    subst hv1; subst hv2
    by_cases hid : t.id = v.id
    · have hcid : ¬ t.contextID = v.contextID := fun hc => hmm ⟨hid, hc⟩
      refine ⟨.contextIDMismatch t.contextID v.contextID, rfl, ?_⟩
      simp [process, validate, hid, hcid]
    · refine ⟨.taskIDMismatch t.id v.id, rfl, ?_⟩
      simp [process, validate, hid]
  | statusUpdate v =>
    simp only [eventIds, Option.some.injEq, Prod.mk.injEq] at hids
    obtain ⟨hv1, hv2⟩ := hids
    subst hv1; subst hv2
    by_cases hid : t.id = v.taskID
    · have hcid : ¬ t.contextID = v.contextID := fun hc => hmm ⟨hid, hc⟩
      refine ⟨.contextIDMismatch t.contextID v.contextID, rfl, ?_⟩
      simp [process, validate, hid, hcid]
    · refine ⟨.taskIDMismatch t.id v.taskID, rfl, ?_⟩
      simp [process, validate, hid]
  | artifactUpdate v =>
    simp only [eventIds, Option.some.injEq, Prod.mk.injEq] at hids
    obtain ⟨hv1, hv2⟩ := hids
    subst hv1; subst hv2
    by_cases hid : t.id = v.taskID
    · have hcid : ¬ t.contextID = v.contextID := fun hc => hmm ⟨hid, hc⟩
      refine ⟨.contextIDMismatch t.contextID v.contextID, rfl, ?_⟩
      simp [process, validate, hid, hcid]
    · refine ⟨.taskIDMismatch t.id v.taskID, rfl, ?_⟩
      simp [process, validate, hid]

/-- C4 witness: a status update carrying an empty TaskID against a managed
task with ID t1 is rejected with zero mutation and no save. -/
theorem process_rejects_identity_mismatch_witness :
    ∃ err, isIdentityMismatch err = true ∧
      process (fun _ => .ok ())
        (some ⟨"t1", "c1", ⟨.working, none, none⟩, [], [], none⟩)
        (.statusUpdate ⟨"", "c1", ⟨.completed, none, none⟩, none⟩) =
        { task := some ⟨"t1", "c1", ⟨.working, none, none⟩, [], [], none⟩,
          saved := [], result := .error err } :=
  process_rejects_identity_mismatch (fun _ => .ok ())
    ⟨"t1", "c1", ⟨.working, none, none⟩, [], [], none⟩
    (.statusUpdate ⟨"", "c1", ⟨.completed, none, none⟩, none⟩)
    "" "c1" (by decide) (by decide)

/-- C1 (failing input): for a matching status update processed while the
Saver fails, `Process` returns the save error, yet the in-memory managed
task has already been mutated — its Status is the one from the event, not its old
value, so a failed save leaves the in-memory task ahead of the persisted
one, contrary to the working-copy-then-commit requirement. -/
theorem updateStatus_mutates_despite_failed_save :
    process (fun _ => .error "disk full")
        (some ⟨"t1", "c1", ⟨.working, none, none⟩, [], [], none⟩)
        (.statusUpdate ⟨"t1", "c1", ⟨.completed, none, none⟩, none⟩) =
      { task := some ⟨"t1", "c1", ⟨.completed, none, none⟩, [], [], none⟩,
        saved := [⟨"t1", "c1", ⟨.completed, none, none⟩, [], [], none⟩],
        result := .error (.saveFailed "disk full") } ∧
    ¬ (process (fun _ => .error "disk full")
        (some ⟨"t1", "c1", ⟨.working, none, none⟩, [], [], none⟩)
        (.statusUpdate ⟨"t1", "c1", ⟨.completed, none, none⟩, none⟩)).task =
      some ⟨"t1", "c1", ⟨.working, none, none⟩, [], [], none⟩ := by
  constructor
  · rfl
  · decide

/-- C9: `NewSubmittedTask` produces a Submitted task whose History is exactly
the input message, whose ContextID is taken from the message when non-empty and is the
freshly generated one otherwise, and whose ID is always the freshly
generated TaskID, never anything drawn from the message. -/
theorem newSubmittedTask_spec (ftid fcid : String) (msg : Message) :
    (NewSubmittedTask ftid fcid msg).status.state = .submitted ∧
    (NewSubmittedTask ftid fcid msg).history = [msg] ∧
    (NewSubmittedTask ftid fcid msg).id = ftid ∧
    (¬ msg.contextID = "" → (NewSubmittedTask ftid fcid msg).contextID = msg.contextID) ∧
    (msg.contextID = "" → (NewSubmittedTask ftid fcid msg).contextID = fcid) := by
  refine ⟨rfl, rfl, rfl, ?_, ?_⟩ <;> intro h <;> simp [NewSubmittedTask, h]

/-- C9 witness: one message with a context and one without. -/
theorem newSubmittedTask_spec_witness :
    (NewSubmittedTask "T1" "C1" ⟨"m1", "t0", "cx", "hi"⟩).contextID = "cx" ∧
    (NewSubmittedTask "T1" "C1" ⟨"m1", "t0", "", "hi"⟩).contextID = "C1" ∧
    (NewSubmittedTask "T1" "C1" ⟨"m1", "t0", "cx", "hi"⟩).id = "T1" :=
  ⟨(newSubmittedTask_spec "T1" "C1" ⟨"m1", "t0", "cx", "hi"⟩).2.2.2.1 (by decide),
   (newSubmittedTask_spec "T1" "C1" ⟨"m1", "t0", "", "hi"⟩).2.2.2.2 rfl,
   (newSubmittedTask_spec "T1" "C1" ⟨"m1", "t0", "cx", "hi"⟩).2.2.1⟩

end TaskUpdate

namespace A2ASrv

open A2A EventQueue

/-- C8: with a non-empty TaskID and a successful `Execute` that left the
queue with a next event, `OnSendMessage` reads exactly that one event and
returns it when it is a terminal `SendMessageResult` variant (Message or
Task snapshot), and otherwise fails with the unexpected-event-type error
naming the concrete variant. -/
theorem onSendMessage_result_classification (tid : String) (q : QueueState)
    (ev : A2A.Event) (rest : List A2A.Event)
    (htid : ¬ tid = "") (hbuf : q.buffer = ev :: rest) :
    onSendMessage tid (.ok q) =
      (if isSendMessageResult ev then .ok ev
       else .error (.unexpectedEventType (eventTypeName ev))) := by
  have hr : (EventQueue.read q).2 = .event ev := by
    simp [EventQueue.read, hbuf]
  simp [onSendMessage, htid, hr]

/-- C8 witness: a status-update event as the first read fails with the
unexpected-event-type error naming *a2a.TaskStatusUpdateEvent; a Message as
the first read is returned as the result. -/
theorem onSendMessage_result_classification_witness :
    onSendMessage "t1"
        (.ok ⟨[.statusUpdate ⟨"t1", "c1", ⟨.working, none, none⟩, none⟩], 4, false⟩) =
      .error (.unexpectedEventType "*a2a.TaskStatusUpdateEvent") ∧
    onSendMessage "t1" (.ok ⟨[.message ⟨"m1", "t1", "c1", "hi"⟩], 4, false⟩) =
      .ok (.message ⟨"m1", "t1", "c1", "hi"⟩) := by
  have h1 := onSendMessage_result_classification "t1"
    ⟨[.statusUpdate ⟨"t1", "c1", ⟨.working, none, none⟩, none⟩], 4, false⟩
    (.statusUpdate ⟨"t1", "c1", ⟨.working, none, none⟩, none⟩) [] (by decide) rfl
  have h2 := onSendMessage_result_classification "t1"
    ⟨[.message ⟨"m1", "t1", "c1", "hi"⟩], 4, false⟩
    (.message ⟨"m1", "t1", "c1", "hi"⟩) [] (by decide) rfl
  exact ⟨by simpa using h1, by simpa using h2⟩

end A2ASrv

namespace TaskStore

open A2A

/-- `vseq` of two producible results is producible. -/
theorem vseq_good (a b : VResult) (ha : goodResult a = true)
    (hb : goodResult b = true) : goodResult (vseq a b) = true := by
  cases a <;> simp_all [vseq]

/-- The validation loops preserve producibility of the accumulated result. -/
theorem foldl_vseq_good {α : Type} (f : α → VResult) :
    ∀ (l : List α) (acc : VResult), goodResult acc = true →
      (∀ x ∈ l, goodResult (f x) = true) →
      goodResult (l.foldl (fun a x => vseq a (f x)) acc) = true := by
  intro l
  induction l with
  | nil => intro acc ha _; exact ha
  | cons x rest ih =>
    intro acc ha hall
    simp only [List.foldl_cons]
    exact ih (vseq acc (f x)) (vseq_good acc (f x) ha (hall x (by simp)))
      (fun y hy => hall y (by simp [hy]))

/-- The validation loops return success when every element validates. -/
theorem foldl_vseq_ok {α : Type} (f : α → VResult) :
    ∀ (l : List α), (∀ x ∈ l, f x = .ok) →
      l.foldl (fun a x => vseq a (f x)) .ok = .ok := by
  intro l
  induction l with
  | nil => intro _; rfl
  | cons x rest ih =>
    intro hall
    simp only [List.foldl_cons, hall x (by simp), vseq]
    exact ih (fun y hy => hall y (by simp [hy]))

/-- A nodup path of in-range node ids is no longer than the heap. -/
theorem path_length_le (n : Nat) (p : List Nat) (hnd : p.Nodup)
    (hbd : ∀ i ∈ p, i < n) : p.length ≤ n := by
  have hsub : p.toFinset ⊆ Finset.range n := by
    intro x hx
    exact Finset.mem_range.mpr (hbd x (List.mem_toFinset.mp hx))
  have hcard := Finset.card_le_card hsub
  rw [List.toFinset_card_of_nodup hnd, Finset.card_range] at hcard
  exact hcard

/-- With enough fuel (one more than the unvisited part of the heap),
`validateMetaRecursive` on a well-formed heap produces one of the three
results the Go code can return: success, circular-reference, or
not-permitted-type — in particular it never exhausts the fuel, i.e. the Go
recursion terminates on every input, cyclic ones included. -/
theorem vmr_good (h : GoHeap) (hok : heapOK h = true) :
    ∀ (fuel : Nat) (v : GoVal) (p : List Nat), p.Nodup →
      (∀ i ∈ p, i < h.length) → h.length - p.length < fuel →
      valRefsOk h.length v = true →
      goodResult (validateMetaRecursive h fuel v p) = true := by
  intro fuel
  induction fuel with
  | zero => intro v p _ _ hlt _; omega
  | succ fl ih =>
    intro v p hnd hbd hlt hv
    cases v with
    | nil => rfl
    | bool b => rfl
    | int i => rfl
    | float f => rfl
    | str s => rfl
    | other t => rfl
    | ref id =>
      have hid : id < h.length := by simpa [valRefsOk] using hv
      by_cases hmem : id ∈ p
      · simp [validateMetaRecursive, hmem, goodResult]
      · have hnode : h.get? id = some (h.get ⟨id, hid⟩) := List.get?_eq_get hid
        have hmemh : h.get ⟨id, hid⟩ ∈ h := List.get_mem h id hid
        have hnodeok : nodeRefsOk h.length (h.get ⟨id, hid⟩) = true :=
          List.all_eq_true.mp hok _ hmemh
        have hnd2 : (id :: p).Nodup := List.nodup_cons.mpr ⟨hmem, hnd⟩
        have hbd2 : ∀ i ∈ id :: p, i < h.length := by
          intro i hi
          rcases List.mem_cons.mp hi with hic | hip
          · rw [hic]; exact hid
          · exact hbd i hip
        have hlen2 := path_length_le h.length (id :: p) hnd2 hbd2
        have hlt2 : h.length - (id :: p).length < fl := by
          simp only [List.length_cons] at hlen2 ⊢
          omega
        simp only [validateMetaRecursive, hmem, if_false, hnode]
        cases hcase : h.get ⟨id, hid⟩ with
        | arr elems =>
          apply foldl_vseq_good
          · rfl
          · intro x hx
            apply ih x (id :: p) hnd2 hbd2 hlt2
            rw [hcase] at hnodeok
            exact List.all_eq_true.mp hnodeok x hx
        | mp entries =>
          apply foldl_vseq_good
          · rfl
          · intro x hx
            apply ih x.2 (id :: p) hnd2 hbd2 hlt2
            rw [hcase] at hnodeok
            exact List.all_eq_true.mp hnodeok x hx

/-- With permitted-only values, an acyclicity rank, and a path every element
of which ranks strictly above the current value, validation succeeds. -/
theorem vmr_ok (h : GoHeap) (rank : Nat → Nat) (hok : heapOK h = true)
    (hperm : heapPermitted h = true) (hr : RankedAcyclic h rank) :
    ∀ (fuel : Nat) (v : GoVal) (p : List Nat), p.Nodup →
      (∀ i ∈ p, i < h.length) → h.length - p.length < fuel →
      valRefsOk h.length v = true → valPermitted v = true →
      (∀ j ∈ p, ∀ cid, v = GoVal.ref cid → rank cid < rank j) →
      validateMetaRecursive h fuel v p = .ok := by
  intro fuel
  induction fuel with
  | zero => intro v p _ _ hlt _ _ _; omega
  | succ fl ih =>
    intro v p hnd hbd hlt hv hvp hinv
    cases v with
    | nil => rfl
    | bool b => rfl
    | int i => rfl
    | float f => rfl
    | str s => rfl
    | other t => simp [valPermitted] at hvp
    | ref id =>
      have hid : id < h.length := by simpa [valRefsOk] using hv
      have hmem : id ∉ p := by
        intro hip
        exact absurd (hinv id hip id rfl) (lt_irrefl (rank id))
      have hnode : h.get? id = some (h.get ⟨id, hid⟩) := List.get?_eq_get hid
      have hmemh : h.get ⟨id, hid⟩ ∈ h := List.get_mem h id hid
      have hnodeok : nodeRefsOk h.length (h.get ⟨id, hid⟩) = true :=
        List.all_eq_true.mp hok _ hmemh
      have hnodeperm : nodePermitted (h.get ⟨id, hid⟩) = true :=
        List.all_eq_true.mp hperm _ hmemh
      have hnd2 : (id :: p).Nodup := List.nodup_cons.mpr ⟨hmem, hnd⟩
      have hbd2 : ∀ i ∈ id :: p, i < h.length := by
        intro i hi
        rcases List.mem_cons.mp hi with hic | hip
        · rw [hic]; exact hid
        · exact hbd i hip
      have hlen2 := path_length_le h.length (id :: p) hnd2 hbd2
      have hlt2 : h.length - (id :: p).length < fl := by
        simp only [List.length_cons] at hlen2 ⊢
        omega
      have hchild : ∀ x, x ∈ nodeChildren (h.get ⟨id, hid⟩) →
          ∀ j ∈ id :: p, ∀ cid, x = GoVal.ref cid → rank cid < rank j := by
        intro x hx j hj cid hxc
        have hedge : rank cid < rank id := by
          apply hr id (h.get ⟨id, hid⟩) hnode
          rw [← hxc]
          exact hx
        rcases List.mem_cons.mp hj with hjc | hjp
        · rw [hjc]; exact hedge
        · exact lt_trans hedge (hinv j hjp id rfl)
      simp only [validateMetaRecursive, hmem, if_false, hnode]
      cases hcase : h.get ⟨id, hid⟩ with
      | arr elems =>
        apply foldl_vseq_ok
        intro x hx
        rw [hcase] at hnodeok hnodeperm
        apply ih x (id :: p) hnd2 hbd2 hlt2
          (List.all_eq_true.mp hnodeok x hx)
          (List.all_eq_true.mp hnodeperm x hx)
        intro j hj cid hxc
        apply hchild x _ j hj cid hxc
        rw [hcase]
        exact hx
      | mp entries =>
        apply foldl_vseq_ok
        intro x hx
        rw [hcase] at hnodeok hnodeperm
        apply ih x.2 (id :: p) hnd2 hbd2 hlt2
          (List.all_eq_true.mp hnodeok x hx)
          (List.all_eq_true.mp hnodeperm x hx)
        intro j hj cid hxc
        apply hchild x.2 _ j hj cid hxc
        rw [hcase]
        simp only [nodeChildren, List.mem_map]
        exact ⟨x, hx, rfl⟩

/-- C10: `validateMeta` terminates on every representable input, cyclic ones
included — its result is always one of the three Go outcomes (success,
circular-reference error, not-permitted-type error); a composite value whose
node is already on the current recursion path is reported as the
circular-reference error rather than recursed into; a value of a
non-permitted type fails with the not-permitted-type error naming it; and an
acyclic value built only from permitted types validates successfully. -/
theorem validateMeta_terminates_and_classifies (h : GoHeap) (v : GoVal)
    (hok : heapOK h = true) (hv : valRefsOk h.length v = true) :
    goodResult (validateMeta h v) = true ∧
    (∀ id p fuel, id ∈ p →
      validateMetaRecursive h (fuel + 1) (.ref id) p = .circular) ∧
    (∀ t fuel p, validateMetaRecursive h (fuel + 1) (.other t) p = .notPermitted t) ∧
    (∀ rank, RankedAcyclic h rank → heapPermitted h = true →
      valPermitted v = true → validateMeta h v = .ok) := by
  refine ⟨?_, ?_, ?_, ?_⟩
  · exact vmr_good h hok (h.length + 1) v [] List.nodup_nil (by simp) (by omega) hv
  · intro id p fuel hmem
    simp [validateMetaRecursive, hmem]
  · intro t fuel p
    rfl
  · intro rank hr hperm hvp
    exact vmr_ok h rank hok hperm hr (h.length + 1) v [] List.nodup_nil
      (by simp) (by omega) hv hvp (by simp)

/-- C10 witness: a self-referential map (its sole entry points back at the
map itself) is classified without divergence, and a small acyclic array of
ints validates successfully. -/
theorem validateMeta_terminates_and_classifies_witness :
    goodResult (validateMeta [GoNode.mp [("self", .ref 0)]] (.ref 0)) = true ∧
    validateMeta [GoNode.arr [.int 3, .str "x"]] (.ref 0) = .ok := by
  constructor
  · exact (validateMeta_terminates_and_classifies [GoNode.mp [("self", .ref 0)]]
      (.ref 0) (by decide) (by decide)).1
  · have hrank : RankedAcyclic [GoNode.arr [.int 3, .str "x"]] (fun _ => 0) := by
      intro id node hget cid hc
      match id with
      | 0 =>
        simp only [List.get?] at hget
        cases hget
        simp [nodeChildren] at hc
      | n + 1 => simp [List.get?] at hget
    exact (validateMeta_terminates_and_classifies [GoNode.arr [.int 3, .str "x"]]
      (.ref 0) (by decide) (by decide)).2.2.2 (fun _ => 0) hrank (by decide) (by decide)

end TaskStore
